import Mathlib

/-!
Verification development for the Hydrakon-CLI repository
(`src/hydrakon/commands/visualizer.py`, `src/hydrakon/commands/test_runner.py`,
`src/hydrakon/main.py`).

The Python functions are shallowly embedded as executable Lean definitions:
`rich.tree.Tree` becomes the pure inductive `RTree`; the mutation
`tree_node.add(child)` is modelled by returning, from each recursive call of
`process_node`, the list of subtrees that the call appends to its enclosing
visible tree node.  Unbounded Python recursion is modelled with an explicit
fuel parameter: a result of `none` means the recursion did not reach an answer
within the given fuel (for every fuel, on cyclic input: divergence).

Frame names are Python `str` values; Python compares them code point by code
point, which is exactly the lexicographic order on their code-point lists, so
names are embedded as `List Char` (`Name`) with the lexicographic order.
-/

/-- A frame name: the sequence of code points of the Python `str`. -/
abbrev Name : Type := List Char

/-- Pure model of `rich.tree.Tree`: a label and the list of added children,
in the order in which `Tree.add` was called on them. -/
inductive RTree : Type where
  | node (label : Name) (children : List RTree)

/-- The label of a rendered tree node. -/
def RTree.label : RTree → Name
  | .node l _ => l

mutual

/-- All labels occurring in a rendered tree (root first, then descendants). -/
def RTree.labels : RTree → List Name
  | .node l cs => l :: labelsList cs

/-- All labels occurring in a list of rendered trees. -/
def labelsList : List RTree → List Name
  | [] => []
  | t :: ts => RTree.labels t ++ labelsList ts

end

/-- `namesSorted l = true` iff consecutive elements of `l` are `≤`-related,
i.e. `l` is in (non-strictly) ascending lexicographic order. -/
def namesSorted : List Name → Bool
  | [] => true
  | [_] => true
  | a :: b :: r => decide (a ≤ b) && namesSorted (b :: r)

mutual

/-- Every sibling list in the tree (the direct children of each node) is in
lexicographic order. -/
def RTree.lexOrdered : RTree → Bool
  | .node _ cs => namesSorted (cs.map RTree.label) && lexOrderedAll cs

/-- `RTree.lexOrdered` for every tree in the list. -/
def lexOrderedAll : List RTree → Bool
  | [] => true
  | t :: ts => RTree.lexOrdered t && lexOrderedAll ts

end

/-- Sequencing helper: run `f` on each element in order and concatenate the
resulting lists; `none` (used to model non-termination) propagates.  This is
the pure counterpart of the loop `for child in sorted(...): result =
process_node(child, ...)` together with `collect_roots`' flattening. -/
def seqConcat {α β : Type} (f : α → Option (List β)) : List α → Option (List β)
  | [] => some []
  | x :: xs =>
    match f x, seqConcat f xs with
    | some a, some b => some (a ++ b)
    | _, _ => none

/-- `children_map[p]` of `build_ascii_tree` (visualizer.py lines 86-91) as the
sorted list `sorted(children_map[node_name])` iterated at line 122: folding
every edge `(parent, child)` into `children_map[parent].add(child)` makes
`children_map[p]` the set of second components of `p`'s edges; `dedup` gives
that set, `insertionSort` the sorted iteration order.  Iterating an absent key
as the empty set absorbs the guard `if node_name in children_map` (line 121). -/
def childList (edges : List (Name × Name)) (p : Name) : List Name :=
  List.insertionSort (· ≤ ·) (((edges.filter (fun e => e.1 = p)).map Prod.snd).dedup)

/-- `all_nodes` (visualizer.py lines 87-93): every name appearing as a parent
or as a child (a set, represented as a deduplicated list). -/
def all_nodes (edges : List (Name × Name)) : List Name :=
  (edges.map Prod.fst ++ edges.map Prod.snd).dedup

/-- `children_nodes` (visualizer.py line 94): every name appearing as a child. -/
def children_nodes (edges : List (Name × Name)) : List Name :=
  (edges.map Prod.snd).dedup

/-- `roots = all_nodes - children_nodes` (visualizer.py line 96). -/
def rootCandidates (edges : List (Name × Name)) : List Name :=
  (all_nodes edges).filter (fun n => n ∉ children_nodes edges)

/-- `process_node` (visualizer.py lines 105-133), fuel-indexed.

`inTree = true` models `tree_node is not None`.  The returned list is: the
list of subtrees this call makes visible at its attachment point — for a
visible node, the single new display node (`tree_node.add(...)` /
`Tree(...)`); for an invisible node, the concatenation of its children's
contributions (`current_tree_node = tree_node` pass-through, resp. the
flattened `child_visual_roots`).  `none` means the recursion exceeded the
fuel, i.e. the Python call would still be running. -/
def process_node (cmap : Name → List Name) (filt : Option (Finset Name)) :
    Nat → Name → Bool → Option (List RTree)
  | 0, _, _ => none
  | fuel + 1, name, inTree =>
    let isVisible : Bool := match filt with
      | none => true
      | some s => decide (name ∈ s)
    if isVisible then
      match seqConcat (fun c => process_node cmap filt fuel c true) (cmap name) with
      | none => none
      | some subs => some [RTree.node name subs]
    else
      seqConcat (fun c => process_node cmap filt fuel c inTree) (cmap name)

/-- The console outcomes of `build_ascii_tree`:
`noData` is the "No TF data found." early return (lines 81-83);
`noStructure` is the "Could not determine TF tree structure." return
(lines 101-103); `rendered nothingMatched trees` prints
"No configured frames found in the active TF tree." iff `nothingMatched`
(lines 148-149) and then prints the trees. -/
inductive BuildOutput : Type where
  | noData
  | noStructure
  | rendered (nothingMatched : Bool) (trees : List RTree)

/-- `build_ascii_tree` (visualizer.py lines 80-153), fuel-indexed.

`fallback` stands for `next(iter(all_nodes))` (line 100): CPython set
iteration order over strings is hash-dependent, so the source fixes no
particular element; theorems quantify over `fallback ∈ all_nodes`. -/
def build_ascii_tree (fuel : Nat) (connections : List (Name × Name))
    (filt : Option (Finset Name)) (fallback : Name) : Option BuildOutput :=
  if connections = [] then some .noData
  else if rootCandidates connections = [] ∧ all_nodes connections = [] then some .noStructure
  else
    (seqConcat (fun r => process_node (childList connections) filt fuel r false)
        (List.insertionSort (· ≤ ·)
          (if rootCandidates connections = [] then [fallback]
           else rootCandidates connections))).map
      (fun vroots => .rendered (vroots.isEmpty && filt.isSome) vroots)

/-- The run never produces an outcome, however much fuel it is given: the
Python recursion never returns (it dies with `RecursionError`). -/
def neverTerminates (edges : List (Name × Name)) (filt : Option (Finset Name))
    (fallback : Name) : Prop :=
  ∀ fuel, build_ascii_tree fuel edges filt fallback = none

/-- The directed parent→child edge relation of an edge list. -/
def edgeRel (edges : List (Name × Name)) (a b : Name) : Prop :=
  (a, b) ∈ edges

/-- The parent→child graph has no directed cycle. -/
def EdgeAcyclic (edges : List (Name × Name)) : Prop :=
  ∀ n, ¬ Relation.TransGen (edgeRel edges) n n

/-- The nodes strictly reachable from `n` along parent→child edges
(a proof-side measure for the recursion of `process_node`). -/
def descSet (edges : List (Name × Name)) (n : Name) : Set Name :=
  {x | x ∈ all_nodes edges ∧ Relation.TransGen (edgeRel edges) n x}

/-! ### Parser: `parse_transforms` (visualizer.py lines 46-78)

`yaml.safe_load` is an external collaborator; it is abstracted as a function
`load` from the chunk's character sequence to `Option YVal`, where `none`
models a raised `yaml.YAMLError` (or any other parse exception) and `some v`
a successful parse to the Python value modelled by `v`. -/

/-- Model of the Python values produced by `yaml.safe_load`: `None`, bools,
integers, strings, lists and string-keyed mappings.  (YAML floats and
non-string mapping keys do not occur in `tf` messages and are not modelled;
none of the fields read by the code could match a non-string key anyway.) -/
inductive YVal : Type where
  | null
  | bool (b : Bool)
  | int (n : Int)
  | str (s : String)
  | list (xs : List YVal)
  | dict (kvs : List (String × YVal))

/-- Python truthiness (`if not doc`, `if parent and child`): `None`, `False`,
`0`, `""`, `[]` and `{}` are falsy, everything else truthy. -/
def pyTruthy : YVal → Bool
  | .null => false
  | .bool b => b
  | .int n => decide (n ≠ 0)
  | .str s => decide (s ≠ "")
  | .list xs => !xs.isEmpty
  | .dict kvs => !kvs.isEmpty

/-- `isinstance(v, dict)`. -/
def YVal.isDict : YVal → Bool
  | .dict _ => true
  | _ => false

/-- `d.get(k)` on a Python dict: the value at `k`, or `None`-as-absent. -/
def dictGet (kvs : List (String × YVal)) (k : String) : Option YVal :=
  (kvs.find? (fun kv => kv.1 = k)).map Prod.snd

/-- Python `str(v)` for the scalar values that can reach it here; container
reprs are abbreviated (no claim inspects them: the code only calls `str` on
`frame_id` fields, which are YAML scalars). -/
def pyStr : YVal → String
  | .null => "None"
  | .bool true => "True"
  | .bool false => "False"
  | .int n => toString n
  | .str s => s
  | .list _ => "[...]"
  | .dict _ => "{...}"

/-- One iteration of `for t in transforms` (visualizer.py lines 66-72):
`.ok (some pair)` when both names are present and truthy, `.ok none` when the
entry contributes no pair (`if parent and child` fails), `.error ()` when the
Python line raises (`t.get` on a non-dict entry, or `header.get` on a
non-dict header), which aborts the rest of this chunk via
`except Exception: continue`. -/
def entryPair : YVal → Except Unit (Option (String × String))
  | .dict kvs =>
    match (dictGet kvs "header").getD (.dict []) with
    | .dict hk =>
      let parent := (dictGet hk "frame_id").getD .null
      let child := (dictGet kvs "child_frame_id").getD .null
      if pyTruthy parent && pyTruthy child then .ok (some (pyStr parent, pyStr child))
      else .ok none
    | _ => .error ()
  | _ => .error ()

/-- The `for t in transforms` loop: appended pairs survive an exception at a
later entry (the `try` wraps the whole chunk, but `connections.append` has
already run for earlier entries), while the remainder of the chunk is
abandoned. -/
def collectEntries : List YVal → List (String × String)
  | [] => []
  | t :: ts =>
    match entryPair t with
    | .error _ => []
    | .ok none => collectEntries ts
    | .ok (some p) => p :: collectEntries ts

/-- `raw_data.split("---")` (visualizer.py line 54): split at each
non-overlapping occurrence of the three-dash document separator, left to
right. -/
def splitDashes : List Char → List (List Char)
  | '-' :: '-' :: '-' :: rest => [] :: splitDashes rest
  | c :: rest =>
    match splitDashes rest with
    | [] => [[c]]
    | h :: t => (c :: h) :: t
  | [] => [[]]

/-- Pairs contributed by one `---`-separated chunk (visualizer.py lines
56-76): whitespace-only chunks are skipped (`if not doc_str.strip()`), a
failed parse (`except yaml.YAMLError`) or a falsy / non-mapping document
contributes nothing, a document without a `transforms` list contributes
nothing, otherwise the transform entries are collected. -/
def chunkPairs (load : List Char → Option YVal) (chunk : List Char) :
    List (String × String) :=
  if chunk.all Char.isWhitespace then []
  else
    match load chunk with
    | none => []
    | some doc =>
      if pyTruthy doc && doc.isDict then
        match doc with
        | .dict kvs =>
          match (dictGet kvs "transforms").getD (.list []) with
          | .list ts => collectEntries ts
          | _ => []
        | _ => []
      else []

/-- `parse_transforms` (visualizer.py lines 46-78): empty input short-circuits
(`if not raw_data`), otherwise each `---`-separated chunk appends its pairs to
`connections` in order. -/
def parse_transforms (load : List Char → Option YVal) (raw : List Char) :
    List (String × String) :=
  if raw = [] then []
  else (splitDashes raw).foldl (fun acc c => acc ++ chunkPairs load c) []

/-! ### CLI environment checks (test_runner.py `topics`, visualizer.py `tfs`) -/

/-- Outcome of a command's start-up phase: `typer.Exit(code)` or proceeding
into the main body with a value. -/
inductive CmdOutcome (α : Type) : Type where
  | exit (code : Nat)
  | proceed (a : α)

/-- The environment facts the start of `topics` (test_runner.py lines 30-48)
depends on: `config.exists()`, `shutil.which("ros2")`, and the result of
`yaml.safe_load` on the config (`none` = `yaml.YAMLError` raised). -/
structure TopicsEnv : Type where
  configExists : Bool
  ros2Present : Bool
  configYaml : Option YVal

/-- Start-up of `topics` (test_runner.py lines 34-48), in source order:
missing config file → exit 1; missing `ros2` → exit 1; invalid YAML →
exit 1; otherwise proceed with the parsed config. -/
def topics_env_check (env : TopicsEnv) : CmdOutcome YVal :=
  if !env.configExists then .exit 1
  else if !env.ros2Present then .exit 1
  else
    match env.configYaml with
    | none => .exit 1
    | some d => .proceed d

/-- `"name" in s` for a Python str `s`: substring test. -/
def containsNameSub (s : String) : Bool :=
  decide (List.IsInfix "name".toList s.toList)

/-- `"name" in item` (visualizer.py line 177): mapping-key test on a dict,
substring test on a str, element test on a list; raises `TypeError` on
non-iterable values. -/
def pyHasName : YVal → Except Unit Bool
  | .dict kvs => .ok (kvs.any (fun kv => kv.1 = "name"))
  | .str s => .ok (containsNameSub s)
  | .list xs => .ok (xs.any (fun v => match v with | .str t => t = "name" | _ => false))
  | _ => .error ()

/-- `item["name"]`: the value on a dict (KeyError if absent), `TypeError`
otherwise. -/
def itemName : YVal → Except Unit YVal
  | .dict kvs =>
    match dictGet kvs "name" with
    | some v => .ok v
    | none => .error ()
  | _ => .error ()

/-- The set comprehension `{item["name"] for item in frames if "name" in item}`
over a list of items; any raised exception propagates. -/
def collectNames : List YVal → Except Unit (List YVal)
  | [] => .ok []
  | item :: rest => do
    let b ← pyHasName item
    if b then do
      let v ← itemName item
      let vs ← collectNames rest
      .ok (v :: vs)
    else collectNames rest

/-- Extraction of the frame filter from a parsed config (visualizer.py lines
174-178): `data.get("frames", [])` (raises on a non-dict `data`), and the
filter set is built only when `frames` is truthy; iterating a truthy
non-list `frames` follows Python iteration (a str yields its characters,
none of which can contain `"name"`; a dict yields its keys; a number raises
`TypeError`). -/
def framesFilter (data : YVal) : Except Unit (Option (List YVal)) :=
  match data with
  | .dict kvs =>
    let frames := (dictGet kvs "frames").getD (.list [])
    if pyTruthy frames then
      match frames with
      | .list items => do
        let names ← collectNames items
        .ok (some names)
      | .str _ => .ok (some [])
      | .dict fk =>
        if fk.any (fun kv => containsNameSub kv.1) then .error () else .ok (some [])
      | _ => .error ()
    else .ok none
  | _ => .error ()

/-- Environment facts the start of `tfs` (visualizer.py lines 156-182)
depends on. -/
structure TfsEnv : Type where
  ros2Present : Bool
  showAll : Bool
  configExists : Bool
  configYaml : Option YVal

/-- Start-up of `tfs` (visualizer.py lines 165-182): missing `ros2` → exit 1;
everything about the config only warns and proceeds (missing file → "Showing
all", parse failure or any exception while extracting frames → "Showing
all"), so the command always proceeds when `ros2` is present. -/
def tfs_env_check (env : TfsEnv) : CmdOutcome (Option (List YVal)) :=
  if !env.ros2Present then .exit 1
  else
    .proceed
      (if env.showAll then none
       else if !env.configExists then none
       else
         match env.configYaml with
         | none => none
         | some d =>
           match framesFilter d with
           | .error _ => none
           | .ok f => f)

/-! ### Capture (`run_capture`, visualizer.py lines 15-44 and 184-188) and the
Hz check (test_runner.py lines 104-127).  Durations are Python floats; the
only operations performed on them (`max(2.0, duration)`, `* (1 ± tolerance)`,
comparisons) are modelled exactly over `ℚ`. -/

/-- The externally observable steps of `run_capture` (visualizer.py lines
15-44): spawn `ros2 topic echo <topic> --no-arr`, sleep for the duration,
`terminate()`, then `communicate(timeout=1)` with `kill()` if that grace
period expires (`graceful = false`). -/
inductive CaptureStep : Type where
  | spawn (cmd : List String)
  | sleep (seconds : ℚ)
  | terminate
  | waitGrace (seconds : ℚ)
  | kill

/-- The step sequence of one `run_capture(topic, duration)` call, given
whether the process terminates gracefully within the 1-second
`communicate(timeout=1)` window. -/
def run_capture_steps (topic : String) (duration : ℚ) (graceful : Bool) :
    List CaptureStep :=
  [.spawn ["ros2", "topic", "echo", topic, "--no-arr"], .sleep duration, .terminate,
    .waitGrace 1] ++ (if graceful then [] else [.kill])

/-- The two timed samples taken by `tfs` (visualizer.py lines 184-188):
`/tf_static` for `static_duration = max(2.0, duration)` and `/tf` for
`duration`. -/
def tfs_captures (duration : ℚ) : List (String × ℚ) :=
  [("/tf_static", max 2 duration), ("/tf", duration)]

/-- The Hz tolerance check (test_runner.py lines 107-122):
`min_hz = target_hz * (1 - tolerance)`, `max_hz = target_hz * (1 + tolerance)`,
pass iff `min_hz <= actual_hz <= max_hz`. -/
def hz_check (target_hz tolerance actual_hz : ℚ) : Bool :=
  let min_hz := target_hz * (1 - tolerance)
  let max_hz := target_hz * (1 + tolerance)
  decide (min_hz ≤ actual_hz ∧ actual_hz ≤ max_hz)

/-! ### Helper lemmas -/

theorem seqConcat_nil {α β : Type} (f : α → Option (List β)) : seqConcat f [] = some [] := rfl

theorem seqConcat_isSome {α β : Type} (f : α → Option (List β)) :
    ∀ xs : List α, (∀ x ∈ xs, (f x).isSome) → (seqConcat f xs).isSome := by
  intro xs
  induction xs with
  | nil => intro _; simp [seqConcat]
  | cons x xs ih =>
    intro h
    obtain ⟨a, ha⟩ := Option.isSome_iff_exists.mp (h x (by simp))
    obtain ⟨b, hb⟩ := Option.isSome_iff_exists.mp (ih (fun y hy => h y (by simp [hy])))
    simp [seqConcat, ha, hb]

theorem seqConcat_all_nil {α β : Type} (f : α → Option (List β)) :
    ∀ xs : List α, (∀ x ∈ xs, f x = some []) → seqConcat f xs = some [] := by
  intro xs
  induction xs with
  | nil => intro _; rfl
  | cons x xs ih =>
    intro h
    have hx := h x (by simp)
    have hxs := ih (fun y hy => h y (by simp [hy]))
    simp [seqConcat, hx, hxs]

theorem seqConcat_mem {α β : Type} (f : α → Option (List β)) :
    ∀ (xs : List α) (out : List β), seqConcat f xs = some out →
      ∀ t ∈ out, ∃ x ∈ xs, ∃ o, f x = some o ∧ t ∈ o := by
  intro xs
  induction xs with
  | nil =>
    intro out h t ht
    simp [seqConcat] at h
    subst h
    simp at ht
  | cons x xs ih =>
    intro out h t ht
    simp only [seqConcat] at h
    cases hfx : f x with
    | none => rw [hfx] at h; simp at h
    | some a =>
      cases hrest : seqConcat f xs with
      | none => rw [hfx, hrest] at h; simp at h
      | some b =>
        rw [hfx, hrest] at h
        simp only [Option.some.injEq] at h
        subst h
        rcases List.mem_append.mp ht with hta | htb
        · exact ⟨x, by simp, a, hfx, hta⟩
        · obtain ⟨y, hy, o, ho, hto⟩ := ih b hrest t htb
          exact ⟨y, by simp [hy], o, ho, hto⟩

/-- If each element contributes exactly one tree, labelled by the element and
internally ordered, then the concatenation lists those trees in the order of
the elements. -/
theorem seqConcat_singleton_shape (f : Name → Option (List RTree)) :
    ∀ (xs : List Name) (out : List RTree),
      (∀ x ∈ xs, ∀ o, f x = some o →
        ∃ t, o = [t] ∧ RTree.label t = x ∧ RTree.lexOrdered t = true) →
      seqConcat f xs = some out →
      out.map RTree.label = xs ∧ lexOrderedAll out = true := by
  intro xs
  induction xs with
  | nil =>
    intro out _ h
    simp [seqConcat] at h
    subst h
    simp [lexOrderedAll]
  | cons x xs ih =>
    intro out hshape h
    simp only [seqConcat] at h
    cases hfx : f x with
    | none => rw [hfx] at h; simp at h
    | some a =>
      cases hrest : seqConcat f xs with
      | none => rw [hfx, hrest] at h; simp at h
      | some b =>
        rw [hfx, hrest] at h
        simp only [Option.some.injEq] at h
        subst h
        obtain ⟨t, hta, htl, hto⟩ := hshape x (by simp) a hfx
        obtain ⟨hb1, hb2⟩ := ih b (fun y hy o ho => hshape y (by simp [hy]) o ho) hrest
        subst hta
        simp [lexOrderedAll, htl, hto, hb1, hb2]

theorem labelsList_mem :
    ∀ (cs : List RTree) (l : Name), l ∈ labelsList cs ↔ ∃ t ∈ cs, l ∈ RTree.labels t := by
  intro cs
  induction cs with
  | nil => intro l; simp [labelsList]
  | cons t ts ih => intro l; simp [labelsList, ih]

theorem namesSorted_of_sorted :
    ∀ l : List Name, l.Sorted (· ≤ ·) → namesSorted l = true := by
  intro l
  induction l with
  | nil => intro _; rfl
  | cons a r ih =>
    intro h
    cases r with
    | nil => rfl
    | cons b r' =>
      rw [List.sorted_cons] at h
      simp only [namesSorted, Bool.and_eq_true, decide_eq_true_eq]
      exact ⟨h.1 b (by simp), ih h.2⟩

theorem childList_sorted (edges : List (Name × Name)) (p : Name) :
    (childList edges p).Sorted (· ≤ ·) :=
  List.sorted_insertionSort _ _

theorem mem_childList {edges : List (Name × Name)} {p c : Name} :
    c ∈ childList edges p ↔ (p, c) ∈ edges := by
  unfold childList
  rw [(List.perm_insertionSort _ _).mem_iff, List.mem_dedup, List.mem_map]
  constructor
  · rintro ⟨⟨a, b⟩, hab, rfl⟩
    rw [List.mem_filter] at hab
    obtain ⟨h1, h2⟩ := hab
    simp only [decide_eq_true_eq] at h2
    subst h2
    exact h1
  · intro h
    exact ⟨(p, c), List.mem_filter.mpr ⟨h, by simp⟩, rfl⟩

theorem mem_all_nodes_of_child {edges : List (Name × Name)} {p c : Name}
    (h : (p, c) ∈ edges) : c ∈ all_nodes edges := by
  unfold all_nodes
  rw [List.mem_dedup, List.mem_append]
  exact Or.inr (List.mem_map.mpr ⟨(p, c), h, rfl⟩)

theorem mem_all_nodes_of_parent {edges : List (Name × Name)} {p c : Name}
    (h : (p, c) ∈ edges) : p ∈ all_nodes edges := by
  unfold all_nodes
  rw [List.mem_dedup, List.mem_append]
  exact Or.inl (List.mem_map.mpr ⟨(p, c), h, rfl⟩)

theorem all_nodes_ne_nil {edges : List (Name × Name)} (h : edges ≠ []) :
    all_nodes edges ≠ [] := by
  cases edges with
  | nil => exact absurd rfl h
  | cons e rest =>
    exact List.ne_nil_of_mem (mem_all_nodes_of_parent (p := e.1) (c := e.2) (by simp))

theorem descSet_finite (edges : List (Name × Name)) (n : Name) :
    (descSet edges n).Finite := by
  apply Set.Finite.subset (List.finite_toSet (all_nodes edges))
  intro x hx
  exact hx.1

theorem descSet_child_lt {edges : List (Name × Name)} (hacyc : EdgeAcyclic edges)
    {n c : Name} (hc : c ∈ childList edges n) :
    (descSet edges c).ncard < (descSet edges n).ncard := by
  have hedge : (n, c) ∈ edges := mem_childList.mp hc
  have hsub : descSet edges c ⊆ descSet edges n := by
    rintro x ⟨hx1, hx2⟩
    exact ⟨hx1, Relation.TransGen.head hedge hx2⟩
  have hcmem : c ∈ descSet edges n :=
    ⟨mem_all_nodes_of_child hedge, Relation.TransGen.single hedge⟩
  have hcnot : c ∉ descSet edges c := fun hx => hacyc c hx.2
  apply Set.ncard_lt_ncard _ (descSet_finite edges n)
  rw [Set.ssubset_def]
  exact ⟨hsub, fun hss => hcnot (hss hcmem)⟩

theorem descSet_ncard_le (edges : List (Name × Name)) (n : Name) :
    (descSet edges n).ncard ≤ (all_nodes edges).length := by
  calc (descSet edges n).ncard
      ≤ {x | x ∈ all_nodes edges}.ncard := by
        apply Set.ncard_le_ncard _ (List.finite_toSet (all_nodes edges))
        intro x hx
        exact hx.1
    _ ≤ (all_nodes edges).length := by
        rw [← List.coe_toFinset, Set.ncard_coe_Finset]
        exact List.toFinset_card_le _

/-- With enough fuel for the longest descending chain, `process_node` always
returns (termination of the recursion on acyclic graphs). -/
theorem process_node_total {edges : List (Name × Name)} (filt : Option (Finset Name))
    (hacyc : EdgeAcyclic edges) :
    ∀ (fuel : Nat) (n : Name) (b : Bool), (descSet edges n).ncard < fuel →
      (process_node (childList edges) filt fuel n b).isSome := by
  intro fuel
  induction fuel with
  | zero => intro n b h; exact absurd h (Nat.not_lt_zero _)
  | succ fuel ih =>
    intro n b h
    have hkids : ∀ b' : Bool, ∀ c ∈ childList edges n,
        (process_node (childList edges) filt fuel c b').isSome := by
      intro b' c hc
      apply ih
      have h1 := descSet_child_lt hacyc hc
      omega
    simp only [process_node]
    split
    · obtain ⟨subs, hsubs⟩ := Option.isSome_iff_exists.mp
        (seqConcat_isSome _ _ (fun c hc => hkids true c hc))
      rw [hsubs]
      rfl
    · exact seqConcat_isSome _ _ (fun c hc => hkids b c hc)

/-- When no node of the graph is in the filter set, every recursive call
contributes nothing (given enough fuel). -/
theorem process_node_allHidden {edges : List (Name × Name)} {filt : Finset Name}
    (hacyc : EdgeAcyclic edges) (hfilt : ∀ x ∈ all_nodes edges, x ∉ filt) :
    ∀ (fuel : Nat) (n : Name) (b : Bool), (descSet edges n).ncard < fuel → n ∉ filt →
      process_node (childList edges) (some filt) fuel n b = some [] := by
  intro fuel
  induction fuel with
  | zero => intro n b h _; exact absurd h (Nat.not_lt_zero _)
  | succ fuel ih =>
    intro n b h hn
    have hrec : ∀ c ∈ childList edges n,
        process_node (childList edges) (some filt) fuel c b = some [] := by
      intro c hc
      have h1 := descSet_child_lt hacyc hc
      exact ih c b (by omega)
        (hfilt c (mem_all_nodes_of_child (mem_childList.mp hc)))
    simp only [process_node]
    split
    · next hv =>
        rw [decide_eq_true_eq] at hv
        exact absurd hv hn
    · exact seqConcat_all_nil _ _ hrec

/-- Every label in any output of a filtered `process_node` run is in the
filter set: invisible nodes never get a display node. -/
theorem process_node_labels_subset (cmap : Name → List Name) (filt : Finset Name) :
    ∀ (fuel : Nat) (n : Name) (b : Bool) (out : List RTree),
      process_node cmap (some filt) fuel n b = some out →
      ∀ t ∈ out, ∀ l ∈ RTree.labels t, l ∈ filt := by
  intro fuel
  induction fuel with
  | zero => intro n b out h; simp [process_node] at h
  | succ fuel ih =>
    intro n b out h t ht l hl
    simp only [process_node] at h
    split at h
    · next hv =>
      rw [decide_eq_true_eq] at hv
      cases hseq : seqConcat (fun c => process_node cmap (some filt) fuel c true)
          (cmap n) with
      | none => rw [hseq] at h; simp at h
      | some subs =>
        rw [hseq] at h
        simp only [Option.some.injEq] at h
        subst h
        simp only [List.mem_singleton] at ht
        subst ht
        simp only [RTree.labels, List.mem_cons] at hl
        rcases hl with rfl | hl
        · exact hv
        · obtain ⟨t', ht', hl'⟩ := (labelsList_mem subs l).mp hl
          obtain ⟨c, _, o, ho, hto⟩ := seqConcat_mem _ _ _ hseq t' ht'
          exact ih c true o ho t' hto l hl'
    · obtain ⟨c, _, o, ho, hto⟩ := seqConcat_mem _ _ _ h t ht
      exact ih c b o ho t hto l hl

/-- Without a filter every call returns exactly one tree, labelled by the
node, with lexicographically ordered siblings throughout. -/
theorem process_node_noFilter_shape (edges : List (Name × Name)) :
    ∀ (fuel : Nat) (n : Name) (b : Bool) (o : List RTree),
      process_node (childList edges) none fuel n b = some o →
      ∃ t, o = [t] ∧ RTree.label t = n ∧ RTree.lexOrdered t = true := by
  intro fuel
  induction fuel with
  | zero => intro n b o h; simp [process_node] at h
  | succ fuel ih =>
    intro n b o h
    simp only [process_node, if_true] at h
    cases hseq : seqConcat (fun c => process_node (childList edges) none fuel c true)
        (childList edges n) with
    | none => rw [hseq] at h; simp at h
    | some subs =>
      rw [hseq] at h
      simp only [Option.some.injEq] at h
      subst h
      refine ⟨RTree.node n subs, rfl, rfl, ?_⟩
      obtain ⟨h1, h2⟩ := seqConcat_singleton_shape _ _ _
        (fun x _ o' ho' => ih x true o' ho') hseq
      simp only [RTree.lexOrdered, Bool.and_eq_true]
      exact ⟨by rw [h1]; exact namesSorted_of_sorted _ (childList_sorted edges n), h2⟩

/-- Sorting a deduplicated list only depends on the underlying set. -/
theorem sortDedup_congr {l₁ l₂ : List Name} (h : l₁.toFinset = l₂.toFinset) :
    List.insertionSort (· ≤ ·) l₁.dedup = List.insertionSort (· ≤ ·) l₂.dedup := by
  have hperm := List.toFinset_eq_iff_perm_dedup.mp h
  exact List.eq_of_perm_of_sorted
    ((List.perm_insertionSort _ _).trans (hperm.trans (List.perm_insertionSort _ _).symm))
    (List.sorted_insertionSort _ _) (List.sorted_insertionSort _ _)

theorem childList_congr {l₁ l₂ : List (Name × Name)} (h : l₁.toFinset = l₂.toFinset) :
    childList l₁ = childList l₂ := by
  have hmem : ∀ e, e ∈ l₁ ↔ e ∈ l₂ := fun e => by
    rw [← List.mem_toFinset, h, List.mem_toFinset]
  funext p
  unfold childList
  apply sortDedup_congr
  rw [List.toFinset.ext_iff]
  intro x
  simp only [List.mem_map, List.mem_filter]
  constructor <;> rintro ⟨e, ⟨he, hp⟩, rfl⟩
  · exact ⟨e, ⟨(hmem e).mp he, hp⟩, rfl⟩
  · exact ⟨e, ⟨(hmem e).mpr he, hp⟩, rfl⟩

theorem mem_all_nodes_iff {edges : List (Name × Name)} {x : Name} :
    x ∈ all_nodes edges ↔ (∃ e ∈ edges, e.1 = x) ∨ ∃ e ∈ edges, e.2 = x := by
  simp [all_nodes, List.mem_append, List.mem_map]

theorem mem_children_nodes_iff {edges : List (Name × Name)} {x : Name} :
    x ∈ children_nodes edges ↔ ∃ e ∈ edges, e.2 = x := by
  simp [children_nodes, List.mem_map]

theorem mem_rootCandidates_iff {edges : List (Name × Name)} {x : Name} :
    x ∈ rootCandidates edges ↔ x ∈ all_nodes edges ∧ x ∉ children_nodes edges := by
  simp [rootCandidates, List.mem_filter]

theorem rootCandidates_nodup (edges : List (Name × Name)) : (rootCandidates edges).Nodup :=
  (List.nodup_dedup _).filter _

theorem rootCandidates_perm {l₁ l₂ : List (Name × Name)} (h : l₁.toFinset = l₂.toFinset) :
    (rootCandidates l₁).Perm (rootCandidates l₂) := by
  have hmem : ∀ e, e ∈ l₁ ↔ e ∈ l₂ := fun e => by
    rw [← List.mem_toFinset, h, List.mem_toFinset]
  apply List.perm_of_nodup_nodup_toFinset_eq (rootCandidates_nodup _) (rootCandidates_nodup _)
  rw [List.toFinset.ext_iff]
  intro x
  simp only [mem_rootCandidates_iff, mem_all_nodes_iff, mem_children_nodes_iff, hmem]

theorem rootCandidates_nil_congr {l₁ l₂ : List (Name × Name)}
    (h : l₁.toFinset = l₂.toFinset) : rootCandidates l₁ = [] ↔ rootCandidates l₂ = [] := by
  have hperm := rootCandidates_perm h
  constructor
  · intro hn; rw [hn] at hperm; exact hperm.symm.eq_nil
  · intro hn; rw [hn] at hperm; exact hperm.eq_nil

theorem rootCandidates_sort_congr {l₁ l₂ : List (Name × Name)}
    (h : l₁.toFinset = l₂.toFinset) :
    List.insertionSort (· ≤ ·) (rootCandidates l₁)
      = List.insertionSort (· ≤ ·) (rootCandidates l₂) :=
  List.eq_of_perm_of_sorted
    ((List.perm_insertionSort _ _).trans
      ((rootCandidates_perm h).trans (List.perm_insertionSort _ _).symm))
    (List.sorted_insertionSort _ _) (List.sorted_insertionSort _ _)

/-- `build_ascii_tree` only depends on the set of edges: every structure it
consults is a set (or a sorted enumeration of one) folded from the edge
list. -/
theorem build_ascii_tree_congr {l₁ l₂ : List (Name × Name)}
    (h : l₁.toFinset = l₂.toFinset) (fuel : Nat) (filt : Option (Finset Name)) (fb : Name) :
    build_ascii_tree fuel l₁ filt fb = build_ascii_tree fuel l₂ filt fb := by
  by_cases h1 : l₁ = []
  · subst h1
    rw [show l₂ = [] from (List.toFinset_eq_empty_iff l₂).mp (by simpa using h.symm)]
  · have h2 : l₂ ≠ [] := by
      intro hn
      subst hn
      exact h1 ((List.toFinset_eq_empty_iff l₁).mp (by simpa using h))
    unfold build_ascii_tree
    rw [if_neg h1, if_neg h2,
      if_neg (show ¬(rootCandidates l₁ = [] ∧ all_nodes l₁ = []) from
        fun hc => all_nodes_ne_nil h1 hc.2),
      if_neg (show ¬(rootCandidates l₂ = [] ∧ all_nodes l₂ = []) from
        fun hc => all_nodes_ne_nil h2 hc.2),
      childList_congr h]
    by_cases hrc : rootCandidates l₁ = []
    · rw [if_pos hrc, if_pos ((rootCandidates_nil_congr h).mp hrc)]
    · rw [if_neg hrc, if_neg (fun hx => hrc ((rootCandidates_nil_congr h).mpr hx)),
        rootCandidates_sort_congr h]

/-- Around the two-cycle `A ↔ B`, `process_node` exhausts any amount of fuel,
whatever the filter and whichever call mode: the Python recursion
`A → B → A → ...` never returns. -/
theorem cyc_process_node_none (filt : Option (Finset Name)) :
    ∀ (fuel : Nat) (b : Bool),
      process_node (childList [(['A'], ['B']), (['B'], ['A'])]) filt fuel ['A'] b = none ∧
      process_node (childList [(['A'], ['B']), (['B'], ['A'])]) filt fuel ['B'] b = none := by
  intro fuel
  induction fuel with
  | zero => intro b; exact ⟨rfl, rfl⟩
  | succ fuel ih =>
    intro b
    have hA : childList [(['A'], ['B']), (['B'], ['A'])] ['A'] = [['B']] := by decide
    have hB : childList [(['A'], ['B']), (['B'], ['A'])] ['B'] = [['A']] := by decide
    constructor
    · simp only [process_node, hA]
      split
      · rw [show seqConcat
            (fun c => process_node (childList [(['A'], ['B']), (['B'], ['A'])]) filt fuel c true)
            [['B']] = none by simp [seqConcat, (ih true).2]]
      · simp [seqConcat, (ih b).2]
    · simp only [process_node, hB]
      split
      · rw [show seqConcat
            (fun c => process_node (childList [(['A'], ['B']), (['B'], ['A'])]) filt fuel c true)
            [['A']] = none by simp [seqConcat, (ih true).1]]
      · simp [seqConcat, (ih b).1]

/-- Building the two-cycle diverges for either possible synthetic fallback
root. -/
theorem cyc_build_none (filt : Option (Finset Name)) (fb : Name)
    (hfb : fb = ['A'] ∨ fb = ['B']) :
    ∀ fuel, build_ascii_tree fuel [(['A'], ['B']), (['B'], ['A'])] filt fb = none := by
  intro fuel
  unfold build_ascii_tree
  rw [if_neg (by decide), if_neg (by decide), if_pos (by decide)]
  have hnone : process_node (childList [(['A'], ['B']), (['B'], ['A'])]) filt fuel fb false
      = none := by
    rcases hfb with rfl | rfl
    · exact (cyc_process_node_none filt fuel false).1
    · exact (cyc_process_node_none filt fuel false).2
  have hsingle : List.insertionSort (α := Name) (· ≤ ·) [fb] = [fb] := rfl
  rw [hsingle]
  simp [seqConcat, hnone]

theorem splitDashes_ne_nil : ∀ l : List Char, splitDashes l ≠ [] := by
  intro l
  induction l using splitDashes.induct with
  | case1 rest ih => rw [splitDashes.eq_1]; simp
  | case2 c rest hne hrest ih => rw [splitDashes.eq_2 c rest hne, hrest]; simp
  | case3 c rest hne h t hrest ih => rw [splitDashes.eq_2 c rest hne, hrest]; simp
  | case4 => rw [splitDashes.eq_3]; simp

/-- Every character of every chunk comes from the input. -/
theorem splitDashes_mem_mem :
    ∀ (l c : List Char), c ∈ splitDashes l → ∀ ch ∈ c, ch ∈ l := by
  intro l
  induction l using splitDashes.induct with
  | case1 rest ih =>
    intro c hc ch hch
    rw [splitDashes.eq_1] at hc
    rcases List.mem_cons.mp hc with rfl | hc
    · simp at hch
    · exact List.mem_cons_of_mem _ (List.mem_cons_of_mem _
        (List.mem_cons_of_mem _ (ih c hc ch hch)))
  | case2 c0 rest hne hrest ih =>
    intro c hc ch hch
    rw [splitDashes.eq_2 c0 rest hne, hrest] at hc
    simp only [List.mem_singleton] at hc
    subst hc
    simp only [List.mem_singleton] at hch
    simp [hch]
  | case3 c0 rest hne h t hrest ih =>
    intro c hc ch hch
    rw [splitDashes.eq_2 c0 rest hne, hrest] at hc
    rcases List.mem_cons.mp hc with rfl | hc
    · rcases List.mem_cons.mp hch with rfl | hch
      · simp
      · have : ch ∈ rest := ih h (by rw [hrest]; simp) ch hch
        simp [this]
    · have : ch ∈ rest := ih c (by rw [hrest]; simp [hc]) ch hch
      simp [this]
  | case4 =>
    intro c hc ch hch
    rw [splitDashes.eq_3] at hc
    simp only [List.mem_singleton] at hc
    subst hc
    simp at hch

theorem chunkPairs_ws {load : List Char → Option YVal} {c : List Char}
    (h : c.all Char.isWhitespace = true) : chunkPairs load c = [] := by
  simp [chunkPairs, h]

theorem foldl_append_chunkPairs (load : List Char → Option YVal) :
    ∀ (cs : List (List Char)) (acc : List (String × String)),
      cs.foldl (fun a c => a ++ chunkPairs load c) acc
        = acc ++ (cs.map (chunkPairs load)).flatten := by
  intro cs
  induction cs with
  | nil => intro acc; simp
  | cons c cs ih => intro acc; simp [ih]

theorem transGen_single_edge {x y : Name}
    (h : Relation.TransGen (edgeRel [(['A'], ['B'])]) x y) : x = ['A'] ∧ y = ['B'] := by
  induction h with
  | single h1 =>
    simp only [edgeRel, List.mem_singleton, Prod.mk.injEq] at h1
    exact h1
  | tail h1 h2 ih =>
    simp only [edgeRel, List.mem_singleton, Prod.mk.injEq] at h2
    exact absurd (ih.2.symm.trans h2.1) (by decide)

/-- The single edge `A → B` is acyclic (used to instantiate hypotheses in
witnesses). -/
theorem acyclic_single_edge : EdgeAcyclic [(['A'], ['B'])] := by
  intro n hn
  obtain ⟨h1, h2⟩ := transGen_single_edge hn
  exact absurd (h1.symm.trans h2) (by decide)

/-! ### Claim theorems -/

/-- C1: with a filter set, a node outside the filter gets no display node:
its call contributes exactly the concatenation of its children's
contributions at the same attachment point (so visible descendants attach
directly under the nearest visible ancestor, and are promoted to top-level
roots when no visible ancestor exists); every rendered label is in the filter
set; and for edges [(A,B), (B,C), (A,D)] with filter {A, C} the output is the
single root A with C nested directly beneath it. -/
theorem c1_filter_promotion :
    (∀ (cmap : Name → List Name) (filt : Finset Name) (fuel : Nat) (name : Name) (b : Bool),
        name ∉ filt →
        process_node cmap (some filt) (fuel + 1) name b
          = seqConcat (fun c => process_node cmap (some filt) fuel c b) (cmap name)) ∧
    (∀ (cmap : Name → List Name) (filt : Finset Name) (fuel : Nat) (name : Name) (b : Bool)
        (out : List RTree),
        process_node cmap (some filt) fuel name b = some out →
        ∀ t ∈ out, ∀ l ∈ RTree.labels t, l ∈ filt) ∧
    build_ascii_tree 5 [(['A'], ['B']), (['B'], ['C']), (['A'], ['D'])]
        (some {['A'], ['C']}) ['A']
      = some (.rendered false [RTree.node ['A'] [RTree.node ['C'] []]]) := by
  refine ⟨?_, process_node_labels_subset, by rfl⟩
  intro cmap filt fuel name b hn
  simp only [process_node]
  split
  · next hv => rw [decide_eq_true_eq] at hv; exact absurd hv hn
  · rfl

/-- Witness for C1: a concrete invisible node passes its children's
contributions through unchanged. -/
theorem c1_filter_promotion_witness :
    process_node (fun _ => []) (some {['A']}) 1 ['B'] true
      = seqConcat (fun c => process_node (fun _ => []) (some {['A']}) 0 c true) [] :=
  c1_filter_promotion.1 (fun _ => []) {['A']} 0 ['B'] true (by decide)

/-- C2: on the cyclic edge set [(A,B),(B,A)] the root-candidate set is indeed
empty, so `next(iter(all_nodes))` must pick a synthetic root out of {A, B};
but for either possible choice the traversal chases the cycle forever and the
build produces no output at all (the Python process dies with
`RecursionError`), so no node is rendered — contradicting the claim that all
nodes still appear in the output. -/
theorem c2_cycle_divergence :
    rootCandidates [(['A'], ['B']), (['B'], ['A'])] = [] ∧
    neverTerminates [(['A'], ['B']), (['B'], ['A'])] none ['A'] ∧
    neverTerminates [(['A'], ['B']), (['B'], ['A'])] none ['B'] :=
  ⟨by decide, cyc_build_none none ['A'] (Or.inl rfl), cyc_build_none none ['B'] (Or.inr rfl)⟩

/-- C3: tree building is a function of the set of edges: two edge lists with
the same underlying set of (parent, child) pairs — in particular a list with
duplicates and its deduplication — build identical output. -/
theorem c3_dedup_invariance :
    ∀ (l₁ l₂ : List (Name × Name)) (fuel : Nat) (filt : Option (Finset Name)) (fb : Name),
      l₁.toFinset = l₂.toFinset → l₂.Nodup →
      build_ascii_tree fuel l₁ filt fb = build_ascii_tree fuel l₂ filt fb := by
  intro l₁ l₂ fuel filt fb h _
  exact build_ascii_tree_congr h fuel filt fb

/-- Witness for C3: a duplicated edge builds the same output as the
deduplicated edge set. -/
theorem c3_dedup_invariance_witness :
    build_ascii_tree 3 [(['A'], ['B']), (['A'], ['B'])] none ['A']
      = build_ascii_tree 3 [(['A'], ['B'])] none ['A'] :=
  c3_dedup_invariance _ _ 3 none ['A'] (by decide) (by decide)

/-- C4 counterexample: with filter {A, D, Z} on edges [(A,B),(A,D),(B,Z)],
the promoted grandchild Z is attached under A before A's own later child D,
so A's rendered children appear in the order Z, D — not lexicographic. -/
theorem c4_counterexample :
    build_ascii_tree 5 [(['A'], ['B']), (['A'], ['D']), (['B'], ['Z'])]
        (some {['A'], ['D'], ['Z']}) ['A']
      = some (.rendered false
          [RTree.node ['A'] [RTree.node ['Z'] [], RTree.node ['D'] []]]) ∧
    lexOrderedAll [RTree.node ['A'] [RTree.node ['Z'] [], RTree.node ['D'] []]] = false :=
  ⟨by rfl, by rfl⟩

/-- C4 (amended): rendered output is invariant under permutation of the edge
list (for any filter), and in an unfiltered build the top-level roots and the
siblings at every level appear in lexicographic order.  (With a filter,
promotion can break sibling order — see the counterexample.) -/
theorem c4_amended :
    (∀ (l₁ l₂ : List (Name × Name)) (fuel : Nat) (filt : Option (Finset Name)) (fb : Name),
        l₁.Perm l₂ → build_ascii_tree fuel l₁ filt fb = build_ascii_tree fuel l₂ filt fb) ∧
    (∀ (edges : List (Name × Name)) (fuel : Nat) (fb : Name) (m : Bool) (ts : List RTree),
        build_ascii_tree fuel edges none fb = some (.rendered m ts) →
        namesSorted (ts.map RTree.label) = true ∧ lexOrderedAll ts = true) := by
  constructor
  · intro l₁ l₂ fuel filt fb hperm
    exact build_ascii_tree_congr
      (by rw [List.toFinset_eq_iff_perm_dedup]; exact hperm.dedup) fuel filt fb
  · intro edges fuel fb m ts h
    unfold build_ascii_tree at h
    by_cases h1 : edges = []
    · rw [if_pos h1] at h; simp at h
    · rw [if_neg h1,
        if_neg (show ¬(rootCandidates edges = [] ∧ all_nodes edges = []) from
          fun hc => all_nodes_ne_nil h1 hc.2)] at h
      cases hseq : seqConcat (fun r => process_node (childList edges) none fuel r false)
          (List.insertionSort (· ≤ ·)
            (if rootCandidates edges = [] then [fb] else rootCandidates edges)) with
      | none => rw [hseq] at h; simp at h
      | some vroots =>
        rw [hseq] at h
        have h' : BuildOutput.rendered (vroots.isEmpty && (none : Option (Finset Name)).isSome)
            vroots = BuildOutput.rendered m ts := Option.some.inj h
        cases h'
        have hshape := seqConcat_singleton_shape _ _ _
          (fun x _ o ho => process_node_noFilter_shape edges fuel x false o ho) hseq
        refine ⟨?_, hshape.2⟩
        rw [hshape.1]
        exact namesSorted_of_sorted _ (List.sorted_insertionSort _ _)

/-- Witness for C4: permuting a concrete edge list leaves the output
unchanged. -/
theorem c4_amended_witness :
    build_ascii_tree 3 [(['A'], ['B']), (['A'], ['C'])] none ['A']
      = build_ascii_tree 3 [(['A'], ['C']), (['A'], ['B'])] none ['A'] :=
  c4_amended.1 _ _ 3 none ['A'] (by decide)

/-- C5 counterexample: for the non-empty cyclic edge list [(A,B),(B,A)] with
filter {Z} — a filter under which no node is rendered — the build does not
report the "nothing matched" outcome: for either possible synthetic root it
produces no outcome at all (the recursion never returns; Python dies with
`RecursionError`), so this case raises rather than reporting. -/
theorem c5_counterexample :
    neverTerminates [(['A'], ['B']), (['B'], ['A'])] (some {['Z']}) ['A'] ∧
    neverTerminates [(['A'], ['B']), (['B'], ['A'])] (some {['Z']}) ['B'] :=
  ⟨cyc_build_none _ _ (Or.inl rfl), cyc_build_none _ _ (Or.inr rfl)⟩

/-- C5 (amended): an empty edge list reports the explicit `noData` outcome;
a non-empty *acyclic* edge list, with a filter set containing none of its
nodes (and the synthetic fallback drawn from the node set, as
`next(iter(all_nodes))` guarantees), reports the distinct explicit
"nothing matched" outcome `rendered true []`; and the two outcomes are
distinct.  (For cyclic edge lists the traversal does not return — see the
counterexample.) -/
theorem c5_amended :
    (∀ (fuel : Nat) (filt : Option (Finset Name)) (fb : Name),
        build_ascii_tree fuel [] filt fb = some .noData) ∧
    (∀ (edges : List (Name × Name)) (filt : Finset Name) (fb : Name) (fuel : Nat),
        edges ≠ [] → EdgeAcyclic edges → (∀ x ∈ all_nodes edges, x ∉ filt) →
        fb ∈ all_nodes edges → (all_nodes edges).length < fuel →
        build_ascii_tree fuel edges (some filt) fb = some (.rendered true [])) ∧
    BuildOutput.noData ≠ BuildOutput.rendered true [] := by
  refine ⟨fun fuel filt fb => rfl, ?_, fun h => BuildOutput.noConfusion h⟩
  intro edges filt fb fuel hne hacyc hfilt hfb hfuel
  unfold build_ascii_tree
  rw [if_neg hne,
    if_neg (show ¬(rootCandidates edges = [] ∧ all_nodes edges = []) from
      fun hc => all_nodes_ne_nil hne hc.2)]
  have hroot : ∀ r ∈ List.insertionSort (· ≤ ·)
      (if rootCandidates edges = [] then [fb] else rootCandidates edges),
      process_node (childList edges) (some filt) fuel r false = some [] := by
    intro r hr
    rw [(List.perm_insertionSort _ _).mem_iff] at hr
    have hrn : r ∈ all_nodes edges := by
      split at hr
      · simp only [List.mem_singleton] at hr
        subst hr
        exact hfb
      · exact (mem_rootCandidates_iff.mp hr).1
    exact process_node_allHidden hacyc hfilt fuel r false
      (lt_of_le_of_lt (descSet_ncard_le _ _) hfuel) (hfilt r hrn)
  rw [seqConcat_all_nil _ _ hroot]
  rfl

/-- Witness for C5: concrete acyclic data with a non-matching filter
produces the "nothing matched" outcome. -/
theorem c5_amended_witness :
    build_ascii_tree 3 [(['A'], ['B'])] (some {['Z']}) ['A'] = some (.rendered true []) :=
  c5_amended.2.1 [(['A'], ['B'])] {['Z']} ['A'] 3 (by decide) acyclic_single_edge
    (by decide) (by decide) (by decide)

/-- C10: on an acyclic edge list the tree-building recursion is well-founded:
any fuel exceeding the number of nodes suffices, and the build returns an
outcome for every filter and every fallback choice. -/
theorem c10_termination :
    ∀ (edges : List (Name × Name)) (filt : Option (Finset Name)) (fb : Name) (fuel : Nat),
      EdgeAcyclic edges → (all_nodes edges).length < fuel →
      (build_ascii_tree fuel edges filt fb).isSome = true := by
  intro edges filt fb fuel hacyc hfuel
  unfold build_ascii_tree
  split
  · rfl
  · split
    · rfl
    · have h := seqConcat_isSome
        (fun r => process_node (childList edges) filt fuel r false)
        (List.insertionSort (· ≤ ·)
          (if rootCandidates edges = [] then [fb] else rootCandidates edges))
        (fun r _ => process_node_total filt hacyc fuel r false
          (lt_of_le_of_lt (descSet_ncard_le _ _) hfuel))
      obtain ⟨v, hv⟩ := Option.isSome_iff_exists.mp h
      rw [hv]
      rfl

/-- Witness for C10: the build terminates on concrete acyclic data. -/
theorem c10_termination_witness :
    (build_ascii_tree 3 [(['A'], ['B'])] none ['A']).isSome = true :=
  c10_termination [(['A'], ['B'])] none ['A'] 3 acyclic_single_edge (by decide)

/-- C6: the transform parser is total and best-effort: its output is the
concatenation of the per-chunk contributions (so one bad chunk never affects
the others); whitespace-only input contributes nothing; a chunk whose
structured parse fails, or parses to a falsy or non-mapping value,
contributes no pairs; and an entry whose header lacks `frame_id`, or which
lacks `child_frame_id`, contributes no pair while the remaining entries are
still processed. -/
theorem c6_parser_best_effort :
    (∀ (load : List Char → Option YVal) (raw : List Char),
        raw.all Char.isWhitespace = true → parse_transforms load raw = []) ∧
    (∀ (load : List Char → Option YVal) (raw : List Char), raw ≠ [] →
        parse_transforms load raw = ((splitDashes raw).map (chunkPairs load)).flatten) ∧
    (∀ (load : List Char → Option YVal) (c : List Char),
        load c = none → chunkPairs load c = []) ∧
    (∀ (load : List Char → Option YVal) (c : List Char) (doc : YVal),
        load c = some doc → (pyTruthy doc = false ∨ doc.isDict = false) →
        chunkPairs load c = []) ∧
    (∀ (t : YVal) (ts : List YVal),
        entryPair t = .ok none → collectEntries (t :: ts) = collectEntries ts) ∧
    (∀ (kvs : List (String × YVal)) (hk : List (String × YVal)),
        (dictGet kvs "header").getD (.dict []) = .dict hk →
        (dictGet hk "frame_id" = none ∨ dictGet kvs "child_frame_id" = none) →
        entryPair (.dict kvs) = .ok none) := by
  have hflat : ∀ (load : List Char → Option YVal) (raw : List Char), raw ≠ [] →
      parse_transforms load raw = ((splitDashes raw).map (chunkPairs load)).flatten := by
    intro load raw h
    unfold parse_transforms
    rw [if_neg h, foldl_append_chunkPairs]
    simp
  refine ⟨?_, hflat, ?_, ?_, ?_, ?_⟩
  · intro load raw h
    by_cases hr : raw = []
    · simp [parse_transforms, hr]
    · rw [hflat load raw hr, List.flatten_eq_nil_iff]
      intro l hl
      rw [List.mem_map] at hl
      obtain ⟨c, hc, rfl⟩ := hl
      apply chunkPairs_ws
      rw [List.all_eq_true] at h ⊢
      exact fun ch hch => h ch (splitDashes_mem_mem raw c hc ch hch)
  · intro load c h
    unfold chunkPairs
    rw [h]
    simp
  · intro load c doc hload hbad
    unfold chunkPairs
    rw [hload]
    rcases hbad with hb | hb <;> simp [hb]
  · intro t ts h
    simp [collectEntries, h]
  · intro kvs hk hheader hmiss
    simp only [entryPair]
    rw [hheader]
    rcases hmiss with h1 | h1 <;> simp [h1, pyTruthy]

/-- Witness for C6: whitespace-only input parses to no edges. -/
theorem c6_parser_best_effort_witness :
    parse_transforms (fun _ => none) [' ', ' '] = [] :=
  c6_parser_best_effort.1 (fun _ => none) [' ', ' '] (by decide)

/-- C7 counterexample: with `ros2` present but the config file absent, `tfs`
does not exit with code 1 — it warns and proceeds showing all frames. -/
theorem c7_counterexample :
    tfs_env_check ⟨true, false, false, none⟩ = .proceed none ∧
    CmdOutcome.proceed (α := Option (List YVal)) none ≠ .exit 1 :=
  ⟨rfl, fun h => CmdOutcome.noConfusion h⟩

/-- C7 (amended): the `topics` command exits with code 1 when the config file
is absent, when `ros2` is absent, or when the config fails to parse; the
`tfs` command exits with code 1 when `ros2` is absent, but an absent or
unparsable config only produces a warning — whenever `ros2` is present `tfs`
proceeds. -/
theorem c7_amended :
    (∀ env : TopicsEnv, env.configExists = false → topics_env_check env = .exit 1) ∧
    (∀ env : TopicsEnv, env.ros2Present = false → topics_env_check env = .exit 1) ∧
    (∀ env : TopicsEnv, env.configYaml = none → topics_env_check env = .exit 1) ∧
    (∀ env : TfsEnv, env.ros2Present = false → tfs_env_check env = .exit 1) ∧
    (∀ env : TfsEnv, env.ros2Present = true → ∃ f, tfs_env_check env = .proceed f) := by
  refine ⟨?_, ?_, ?_, ?_, ?_⟩
  · intro env h
    simp [topics_env_check, h]
  · intro env h
    unfold topics_env_check
    cases hc : env.configExists <;> simp [h]
  · intro env h
    unfold topics_env_check
    cases hc : env.configExists <;> cases hr : env.ros2Present <;> simp [h]
  · intro env h
    simp [tfs_env_check, h]
  · intro env h
    unfold tfs_env_check
    rw [h]
    exact ⟨_, rfl⟩

/-- Witness for C7: a concrete missing-config environment makes `topics`
exit 1, and a concrete missing-ros2 environment makes `tfs` exit 1. -/
theorem c7_amended_witness :
    topics_env_check ⟨false, true, none⟩ = .exit 1 ∧
    tfs_env_check ⟨false, false, true, none⟩ = .exit 1 :=
  ⟨c7_amended.1 ⟨false, true, none⟩ rfl, c7_amended.2.2.2.1 ⟨false, false, true, none⟩ rfl⟩

/-- C8 counterexample: for requested duration 1 the static channel is
captured for `max(2.0, 1) = 2` seconds, not the caller-specified 1. -/
theorem c8_counterexample :
    tfs_captures 1 = [("/tf_static", 2), ("/tf", 1)] ∧ (2 : ℚ) ≠ 1 := by
  constructor
  · unfold tfs_captures
    rw [show max (2 : ℚ) 1 = 2 from max_eq_left (by norm_num)]
  · norm_num

/-- C8 (amended): the dynamic channel `/tf` is captured for exactly the
requested duration `d`; the static channel `/tf_static` is captured for
`max(2.0, d)` — which equals `d` exactly when `d ≥ 2`; and each capture
sleeps for its duration, terminates the process, waits a 1-second grace
period, and kills the process if it did not terminate gracefully. -/
theorem c8_amended :
    (∀ d : ℚ, tfs_captures d = [("/tf_static", max 2 d), ("/tf", d)]) ∧
    (∀ d : ℚ, 2 ≤ d → tfs_captures d = [("/tf_static", d), ("/tf", d)]) ∧
    (∀ (topic : String) (d : ℚ),
        run_capture_steps topic d true
          = [.spawn ["ros2", "topic", "echo", topic, "--no-arr"], .sleep d, .terminate,
              .waitGrace 1] ∧
        run_capture_steps topic d false
          = [.spawn ["ros2", "topic", "echo", topic, "--no-arr"], .sleep d, .terminate,
              .waitGrace 1, .kill]) := by
  refine ⟨fun d => rfl, ?_, fun topic d => ⟨rfl, rfl⟩⟩
  intro d hd
  unfold tfs_captures
  rw [max_eq_right hd]

/-- Witness for C8: at duration 3 both channels are captured for exactly 3
seconds. -/
theorem c8_amended_witness :
    tfs_captures 3 = [("/tf_static", 3), ("/tf", 3)] :=
  c8_amended.2.1 3 (by norm_num)

/-- C9: the rate check passes iff the measured rate lies in the closed
interval [target*(1-t), target*(1+t)], which is symmetric about the target:
its midpoint is the target rate. -/
theorem c9_hz_tolerance :
    ∀ target tolerance actual : ℚ,
      (hz_check target tolerance actual = true ↔
        target * (1 - tolerance) ≤ actual ∧ actual ≤ target * (1 + tolerance)) ∧
      (target * (1 - tolerance) + target * (1 + tolerance)) / 2 = target := by
  intro target tolerance actual
  constructor
  · simp [hz_check]
  · ring

/-- Sanity check of the embedding against the spec's unfiltered example:
edges [(A,B), (B,C), (A,D)] build one root A with children B (→ C) and D. -/
theorem build_example_unfiltered :
    build_ascii_tree 5 [(['A'], ['B']), (['B'], ['C']), (['A'], ['D'])] none ['A']
      = some (.rendered false
          [RTree.node ['A'] [RTree.node ['B'] [RTree.node ['C'] []], RTree.node ['D'] []]]) :=
  rfl
